import Mathlib

/-!
# Verification of `src/experiment/simulator.py`

A shallow embedding of the DNA read simulator.  Python strings are modelled
as `List Char`, Python integers as `Int` (with `Int.fdiv` for Python's floor
division `//`), and Python slices by `pySlice`, which reproduces the
negative-index and clamping behaviour of `s[a:b]`.

Randomness is modelled by oracle streams: a call `random.randint(lo, hi)`
receives a natural-number oracle value `c` and returns `lo + c % (hi - lo + 1)`,
which for `lo ≤ hi` always lies in `[lo, hi]` and realises every value of the
interval for a suitable oracle value.  `random.shuffle` receives its own oracle
and performs the Fisher–Yates swaps of CPython.  The unbounded `while` loop of
`simulate_reads_with_depth` is modelled with explicit fuel, one unit per
iteration; the loop's own exit condition `current_index < total_length` is
tested before every iteration exactly as in the source.
-/

/-- A simulated read, the Python tuple `("S_" + str(read_id), current_index, read)`
appended at line 78 of the source: identifier, start offset, subsequence. -/
abbrev Read := String × Int × List Char

/-- Python index normalisation for a slice endpoint: a negative index counts
from the end of the sequence, and the result is clamped into `[0, n]`. -/
def pyIndex (n : Nat) (i : Int) : Nat :=
  if i < 0 then ((n : Int) + i).toNat else min i.toNat n

/-- Python slice `s[a : b]` (unit step): elements from position
`pyIndex n a` up to, excluding, `pyIndex n b`. -/
def pySlice (s : List Char) (a b : Int) : List Char :=
  (s.take (pyIndex s.length b)).drop (pyIndex s.length a)

/-- Oracle model of `random.randint(lo, hi)`: the oracle value `c` is folded
into the closed interval `[lo, hi]`.  For `lo ≤ hi` the result always lies in
the interval, and every point of the interval is hit by some oracle value. -/
def randint (lo hi : Int) (c : Nat) : Int :=
  lo + (c : Int) % (hi - lo + 1)

/-- The mutable locals of the loop of `simulate_reads_with_depth`
(source lines 62–80).  `read_length` is the Python variable of the same name,
which holds the parameter initially and afterwards the most recent draw. -/
structure SimState where
  reads : List Read
  read_id : Nat
  current_index : Int
  read_length : Int
deriving DecidableEq

/-- State at entry of the loop (source lines 62–65): no reads, `read_id = 1`,
`current_index = 0`, and the `read_length` parameter. -/
def initState (read_length : Int) : SimState :=
  ⟨[], 1, 0, read_length⟩

/-- One iteration of the `while` body (source lines 67–80), given the oracle
value `c` of this iteration's `random.randint` call:
draw `read_length`, compute `step_size = read_length // depth`, then either
skip (when the read would overrun the sequence end) or append the slice,
advancing `current_index` by `step_size` in both branches. -/
def simStep (input : List Char) (depth length_variation : Int) (c : Nat)
    (s : SimState) : SimState :=
  let read_length :=
    randint (s.read_length - length_variation) (s.read_length + length_variation) c
  let step_size := Int.fdiv read_length depth
  if s.current_index + read_length > (input.length : Int) then
    { s with current_index := s.current_index + step_size, read_length := read_length }
  else
    { reads := s.reads ++ [("S_" ++ toString s.read_id, s.current_index,
        pySlice input s.current_index (s.current_index + read_length))],
      read_id := s.read_id + 1,
      current_index := s.current_index + step_size,
      read_length := read_length }

/-- The `while current_index < total_length` loop (source line 67), with
explicit fuel, one unit per iteration.  Oracle values are consumed from the
head of the stream; the tail is passed to the next iteration. -/
def simRun (input : List Char) (depth length_variation : Int) :
    Nat → (Nat → Nat) → SimState → SimState
  | 0, _, s => s
  | fuel + 1, choices, s =>
    if s.current_index < (input.length : Int) then
      simRun input depth length_variation fuel (fun i => choices (i + 1))
        (simStep input depth length_variation (choices 0) s)
    else s

/-- Swap the elements at positions `i` and `j` of a list
(`x[i], x[j] = x[j], x[i]`); out-of-range positions leave the list unchanged. -/
def listSwap (l : List α) (i j : Nat) : List α :=
  match l[i]?, l[j]? with
  | some a, some b => (l.set i b).set j a
  | _, _ => l

/-- CPython `random.shuffle` body: `for i in reversed(range(1, len(x)))`,
swap position `i` with position `randbelow(i+1)`; the oracle value `r i`
is folded into `[0, i]` by `% (i+1)`. -/
def shuffleFrom (r : Nat → Nat) (l : List α) : Nat → List α
  | 0 => l
  | i + 1 => shuffleFrom r (listSwap l (i + 1) (r (i + 1) % (i + 2))) i

/-- Oracle model of `random.shuffle` (source line 82). -/
def pyShuffle (r : Nat → Nat) (l : List α) : List α :=
  shuffleFrom r l (l.length - 1)

/-- `simulate_reads_with_depth` (source lines 47–84): run the extraction loop
from the initial state, then shuffle the collected reads.  `min_read_length`
is a parameter of the source function; its body never reads it. -/
def simulate_reads_with_depth (input_string : List Char)
    (read_length depth length_variation min_read_length : Int)
    (choices : Nat → Nat) (shuffleOracle : Nat → Nat) (fuel : Nat) : List Read :=
  pyShuffle shuffleOracle
    (simRun input_string depth length_variation fuel choices (initState read_length)).reads

/-- `custom_sort` (source lines 21–31): the sort key of a read tuple,
`(len(t[0]), t[0])`. -/
def custom_sort (t : Read) : Nat × String :=
  (t.1.length, t.1)

/-- Python's `<` on strings: lexicographic comparison of the code-point
sequences. -/
def pyStrLtb : List Char → List Char → Bool
  | [], [] => false
  | [], _ :: _ => true
  | _ :: _, [] => false
  | a :: as, b :: bs => if a = b then pyStrLtb as bs else decide (a < b)

/-- Python's `<=` on strings: `s1 <= s2` iff not `s2 < s1`. -/
def pyStrLe (a b : String) : Prop :=
  pyStrLtb b.data a.data = false

instance : DecidableRel pyStrLe := fun a b =>
  inferInstanceAs (Decidable (_ = false))

/-- Python's lexicographic order on the `(int, str)` key pairs produced by
`custom_sort`: first component first, ties by the string order. -/
def keyLe (a b : Nat × String) : Prop :=
  a.1 < b.1 ∨ (a.1 = b.1 ∧ pyStrLe a.2 b.2)

instance : DecidableRel keyLe := fun a b =>
  inferInstanceAs (Decidable (_ ∨ _ ∧ _))

/-- The order in which `sorted(simulated_reads, key=custom_sort)` arranges
reads (source line 106). -/
def gfaLe (a b : Read) : Prop :=
  keyLe (custom_sort a) (custom_sort b)

instance : DecidableRel gfaLe := fun a b =>
  inferInstanceAs (Decidable (keyLe _ _))

/-- `sorted(simulated_reads, key=custom_sort)` (source line 106).  Python's
`sorted` is a stable sort; a stable sort for a total preorder is extensionally
unique, so insertion sort with the non-strict key order is a faithful model. -/
def gfaSort (l : List Read) : List Read :=
  List.insertionSort gfaLe l

/-- The nucleotide alphabet of `create_random_read` (source line 44). -/
def nucleotides : List Char := ['A', 'T', 'G', 'C']

/-- `create_random_read` (source lines 34–44): each position is an independent
`random.choice(['A', 'T', 'G', 'C'])`, modelled by indexing the alphabet with
the oracle value folded by `% 4`. -/
def create_random_read (read_length : Nat) (r : Nat → Nat) : List Char :=
  (List.range read_length).map (fun i => nucleotides.getD (r i % 4) 'A')

/-- `true` iff every `random.randint` value drawn along the run (loop
condition tested exactly as in `simRun`) satisfies the predicate `P`. -/
def runDrawsSat (input : List Char) (depth length_variation : Int)
    (P : Int → Bool) : Nat → (Nat → Nat) → SimState → Bool
  | 0, _, _ => true
  | fuel + 1, choices, s =>
    if s.current_index < (input.length : Int) then
      P (randint (s.read_length - length_variation) (s.read_length + length_variation)
          (choices 0)) &&
      runDrawsSat input depth length_variation P fuel (fun i => choices (i + 1))
        (simStep input depth length_variation (choices 0) s)
    else true

/-- `true` iff the loop condition `current_index < total_length` holds at the
start of each of the next `n` iterations, i.e. the loop body runs at least
`n` times from `s`. -/
def activeFor (input : List Char) (depth length_variation : Int) :
    Nat → (Nat → Nat) → SimState → Bool
  | 0, _, _ => true
  | n + 1, choices, s =>
    decide (s.current_index < (input.length : Int)) &&
    activeFor input depth length_variation n (fun i => choices (i + 1))
      (simStep input depth length_variation (choices 0) s)

/-- Modelled from the spec's words (§4.2 step 2a): the cumulative sequence of
drawn lengths, in which the draw of iteration `j + 1` is taken from the
interval of radius `length_variation` centered on the draw of iteration `j`,
and the first draw is centered on the original parameter. -/
def specDrawnSeq (length_variation : Int) (choices : Nat → Nat) (center : Int) :
    Nat → Int
  | 0 => randint (center - length_variation) (center + length_variation) (choices 0)
  | j + 1 =>
    specDrawnSeq length_variation (fun i => choices (i + 1))
      (randint (center - length_variation) (center + length_variation) (choices 0)) j

/-- The numeric value of one decimal digit character. -/
def charVal (c : Char) : Nat := c.toNat - '0'.toNat

/-- The numeric value of a most-significant-first decimal digit string. -/
def readDigits (l : List Char) : Nat :=
  l.foldl (fun a c => a * 10 + charVal c) 0

/-! ## Basic facts about the random draw model -/

theorem randint_bounds {lo hi : Int} (c : Nat) (h : lo ≤ hi) :
    lo ≤ randint lo hi c ∧ randint lo hi c ≤ hi := by
  unfold randint
  have hw : (0 : Int) < hi - lo + 1 := by omega
  have h1 : 0 ≤ (c : Int) % (hi - lo + 1) := Int.emod_nonneg _ (by omega)
  have h2 : (c : Int) % (hi - lo + 1) < hi - lo + 1 := Int.emod_lt_of_pos _ hw
  omega

theorem simStep_read_length (input : List Char) (depth lv : Int) (c : Nat) (s : SimState) :
    (simStep input depth lv c s).read_length
      = randint (s.read_length - lv) (s.read_length + lv) c := by
  simp only [simStep]
  split <;> rfl

theorem simStep_current_index (input : List Char) (depth lv : Int) (c : Nat) (s : SimState) :
    (simStep input depth lv c s).current_index
      = s.current_index
        + Int.fdiv (randint (s.read_length - lv) (s.read_length + lv) c) depth := by
  simp only [simStep]
  split <;> rfl

theorem simStep_reads_of_overrun (input : List Char) (depth lv : Int) (c : Nat) (s : SimState)
    (h : s.current_index + randint (s.read_length - lv) (s.read_length + lv) c
          > (input.length : Int)) :
    (simStep input depth lv c s).reads = s.reads := by
  simp only [simStep]
  rw [if_pos h]

theorem simStep_reads_of_fit (input : List Char) (depth lv : Int) (c : Nat) (s : SimState)
    (h : ¬ s.current_index + randint (s.read_length - lv) (s.read_length + lv) c
          > (input.length : Int)) :
    (simStep input depth lv c s).reads
      = s.reads ++ [("S_" ++ toString s.read_id, s.current_index,
          pySlice input s.current_index
            (s.current_index + randint (s.read_length - lv) (s.read_length + lv) c))] := by
  simp only [simStep]
  rw [if_neg h]

/-! ## The shuffle stage is a permutation -/

theorem cons_set_perm : ∀ (xs : List α) (m : Nat) (x b : α), xs[m]? = some b →
    (b :: xs.set m x).Perm (x :: xs)
  | [], m, x, b, h => by simp at h
  | y :: t, 0, x, b, h => by
    simp only [List.getElem?_cons_zero, Option.some.injEq] at h
    subst h
    simpa using List.Perm.swap x y t
  | y :: t, m + 1, x, b, h => by
    simp only [List.getElem?_cons_succ] at h
    simp only [List.set_cons_succ]
    exact (List.Perm.swap y b _).trans
      ((List.Perm.cons y (cons_set_perm t m x b h)).trans (List.Perm.swap x y t))

theorem set_set_perm : ∀ (l : List α) (i j : Nat) (a b : α),
    l[i]? = some a → l[j]? = some b → ((l.set i b).set j a).Perm l
  | [], i, j, a, b, h1, _ => by simp at h1
  | x :: t, 0, 0, a, b, h1, h2 => by
    simp only [List.getElem?_cons_zero, Option.some.injEq] at h1 h2
    subst h1; subst h2
    simp
  | x :: t, 0, m + 1, a, b, h1, h2 => by
    simp only [List.getElem?_cons_zero, Option.some.injEq] at h1
    simp only [List.getElem?_cons_succ] at h2
    subst h1
    simp only [List.set_cons_zero, List.set_cons_succ]
    exact cons_set_perm t m x b h2
  | x :: t, m + 1, 0, a, b, h1, h2 => by
    simp only [List.getElem?_cons_zero, Option.some.injEq] at h2
    simp only [List.getElem?_cons_succ] at h1
    subst h2
    simp only [List.set_cons_zero, List.set_cons_succ]
    exact cons_set_perm t m x a h1
  | x :: t, m + 1, k + 1, a, b, h1, h2 => by
    simp only [List.getElem?_cons_succ] at h1 h2
    simp only [List.set_cons_succ]
    exact List.Perm.cons x (set_set_perm t m k a b h1 h2)

theorem listSwap_perm (l : List α) (i j : Nat) : (listSwap l i j).Perm l := by
  unfold listSwap
  cases h1 : l[i]? with
  | none => exact List.Perm.refl l
  | some a =>
    cases h2 : l[j]? with
    | none => exact List.Perm.refl l
    | some b => exact set_set_perm l i j a b h1 h2

theorem shuffleFrom_perm (r : Nat → Nat) : ∀ (n : Nat) (l : List α),
    (shuffleFrom r l n).Perm l
  | 0, l => List.Perm.refl l
  | n + 1, l =>
    List.Perm.trans
      (shuffleFrom_perm r n (listSwap l (n + 1) (r (n + 1) % (n + 2))))
      (listSwap_perm l (n + 1) (r (n + 1) % (n + 2)))

theorem pyShuffle_perm (r : Nat → Nat) (l : List α) : (pyShuffle r l).Perm l :=
  shuffleFrom_perm r (l.length - 1) l

/-! ## The GFA sort stage: order facts -/

theorem pyStrLtb_asymm : ∀ x y : List Char, pyStrLtb x y = true → pyStrLtb y x = false
  | [], [], h => by simp [pyStrLtb] at h
  | [], _ :: _, _ => rfl
  | _ :: _, [], h => by simp [pyStrLtb] at h
  | a :: as, b :: bs, h => by
    by_cases hab : a = b
    · subst hab
      simp only [pyStrLtb, if_pos rfl] at h ⊢
      exact pyStrLtb_asymm as bs h
    · simp only [pyStrLtb, if_neg hab] at h
      have hlt : a < b := of_decide_eq_true h
      have hba : b ≠ a := fun e => hab e.symm
      simp only [pyStrLtb, if_neg hba]
      exact decide_eq_false (lt_asymm hlt)

theorem pyStrLtb_linear : ∀ x z : List Char, pyStrLtb x z = true →
    ∀ y : List Char, pyStrLtb x y = true ∨ pyStrLtb y z = true
  | [], [], h, _ => by simp [pyStrLtb] at h
  | [], _ :: _, _, [] => Or.inr rfl
  | [], _ :: _, _, _ :: _ => Or.inl rfl
  | _ :: _, [], h, _ => by simp [pyStrLtb] at h
  | a :: as, b :: bs, h, [] => Or.inr rfl
  | a :: as, b :: bs, h, c :: cs => by
    by_cases hab : a = b
    · subst hab
      simp only [pyStrLtb, if_pos rfl] at h
      by_cases hac : a = c
      · subst hac
        simp only [pyStrLtb, if_pos rfl]
        exact pyStrLtb_linear as bs h cs
      · have hca : c ≠ a := fun e => hac e.symm
        simp only [pyStrLtb, if_neg hac, if_neg hca]
        rcases lt_or_gt_of_ne (show a ≠ c from hac) with hlt | hgt
        · exact Or.inl (decide_eq_true hlt)
        · exact Or.inr (decide_eq_true hgt)
    · simp only [pyStrLtb, if_neg hab] at h
      have hltab : a < b := of_decide_eq_true h
      by_cases hac : a = c
      · subst hac
        refine Or.inr ?_
        simp only [pyStrLtb, if_neg hab]
        exact decide_eq_true hltab
      · rcases lt_or_gt_of_ne (show a ≠ c from hac) with hlt | hgt
        · refine Or.inl ?_
          simp only [pyStrLtb, if_neg hac]
          exact decide_eq_true hlt
        · have hcb : c < b := lt_trans hgt hltab
          have hcbne : c ≠ b := ne_of_lt hcb
          refine Or.inr ?_
          simp only [pyStrLtb, if_neg hcbne]
          exact decide_eq_true hcb

theorem pyStrLe_total (a b : String) : pyStrLe a b ∨ pyStrLe b a := by
  unfold pyStrLe
  cases hba : pyStrLtb b.data a.data with
  | false => exact Or.inl rfl
  | true => exact Or.inr (pyStrLtb_asymm _ _ hba)

theorem pyStrLe_trans {a b c : String} (h1 : pyStrLe a b) (h2 : pyStrLe b c) :
    pyStrLe a c := by
  unfold pyStrLe at h1 h2 ⊢
  cases hca : pyStrLtb c.data a.data with
  | false => rfl
  | true =>
    rcases pyStrLtb_linear c.data a.data hca b.data with h | h
    · simp [h] at h2
    · simp [h] at h1

instance : IsTotal Read gfaLe := by
  constructor
  intro a b
  unfold gfaLe keyLe
  rcases Nat.lt_trichotomy (custom_sort a).1 (custom_sort b).1 with h | h | h
  · exact Or.inl (Or.inl h)
  · rcases pyStrLe_total (custom_sort a).2 (custom_sort b).2 with hs | hs
    · exact Or.inl (Or.inr ⟨h, hs⟩)
    · exact Or.inr (Or.inr ⟨h.symm, hs⟩)
  · exact Or.inr (Or.inl h)

instance : IsTrans Read gfaLe := by
  constructor
  intro a b c hab hbc
  unfold gfaLe keyLe at hab hbc ⊢
  rcases hab with h1 | ⟨h1, h1s⟩ <;> rcases hbc with h2 | ⟨h2, h2s⟩
  · exact Or.inl (Nat.lt_trans h1 h2)
  · exact Or.inl (h2 ▸ h1)
  · exact Or.inl (h1 ▸ h2)
  · exact Or.inr ⟨h1.trans h2, pyStrLe_trans h1s h2s⟩

theorem gfaSort_perm (l : List Read) : (gfaSort l).Perm l :=
  List.perm_insertionSort gfaLe l

theorem gfaSort_sorted (l : List Read) : List.Sorted gfaLe (gfaSort l) :=
  List.sorted_insertionSort gfaLe l

/-! ## Decimal notation facts, for identifier uniqueness -/

theorem toDigitsCore_eq_append (b : Nat) :
    ∀ (f n : Nat) (acc : List Char),
      Nat.toDigitsCore b f n acc = Nat.toDigitsCore b f n [] ++ acc := by
  intro f
  induction f with
  | zero => intro n acc; simp [Nat.toDigitsCore]
  | succ f ih =>
    intro n acc
    by_cases h : n / b = 0
    · simp [Nat.toDigitsCore, h]
    · show (if n / b = 0 then _ else Nat.toDigitsCore b f (n / b) _)
        = (if n / b = 0 then _ else Nat.toDigitsCore b f (n / b) _) ++ acc
      rw [if_neg h, if_neg h, ih (n / b) (Nat.digitChar (n % b) :: acc),
        ih (n / b) [Nat.digitChar (n % b)]]
      simp

theorem charVal_digitChar : ∀ k, k < 10 → charVal (Nat.digitChar k) = k := by decide

theorem readDigits_append_digit (l : List Char) (c : Char) :
    readDigits (l ++ [c]) = readDigits l * 10 + charVal c := by
  simp [readDigits]

theorem readDigits_toDigitsCore : ∀ (f n : Nat), n < f →
    readDigits (Nat.toDigitsCore 10 f n []) = n := by
  intro f
  induction f with
  | zero => intro n h; omega
  | succ f ih =>
    intro n h
    by_cases h10 : n / 10 = 0
    · have hn : n < 10 := by omega
      show readDigits (if n / 10 = 0 then _ else _) = n
      rw [if_pos h10]
      simp [readDigits, charVal_digitChar (n % 10) (by omega)]
      omega
    · have hrec : Nat.toDigitsCore 10 (f + 1) n []
          = Nat.toDigitsCore 10 f (n / 10) [] ++ [Nat.digitChar (n % 10)] := by
        show (if n / 10 = 0 then _ else Nat.toDigitsCore 10 f (n / 10) _) = _
        rw [if_neg h10]
        exact toDigitsCore_eq_append 10 f (n / 10) [Nat.digitChar (n % 10)]
      rw [hrec, readDigits_append_digit, ih (n / 10) (by omega),
        charVal_digitChar (n % 10) (by omega)]
      omega

theorem Nat_repr_inj : Function.Injective Nat.repr := by
  intro m n h
  have hdig : Nat.toDigits 10 m = Nat.toDigits 10 n :=
    List.asString_inj.mp h
  have hm := readDigits_toDigitsCore (m + 1) m (Nat.lt_succ_self m)
  have hn := readDigits_toDigitsCore (n + 1) n (Nat.lt_succ_self n)
  have : readDigits (Nat.toDigitsCore 10 (m + 1) m [])
      = readDigits (Nat.toDigitsCore 10 (n + 1) n []) := by
    show readDigits (Nat.toDigits 10 m) = readDigits (Nat.toDigits 10 n)
    rw [hdig]
  omega

theorem sid_inj : Function.Injective (fun i : Nat => "S_" ++ toString (i + 1)) := by
  intro a b h
  simp only at h
  have hdata : ("S_" ++ toString (a + 1)).data = ("S_" ++ toString (b + 1)).data := by
    rw [h]
  rw [String.data_append, String.data_append] at hdata
  have htl := List.append_cancel_left hdata
  have hrepr : Nat.repr (a + 1) = Nat.repr (b + 1) := String.toList_inj.mp htl
  have := Nat_repr_inj hrepr
  omega

/-! ## Identifier assignment along the run -/

theorem simStep_ids (input : List Char) (depth lv : Int) (c : Nat) (s : SimState)
    (h1 : s.read_id = s.reads.length + 1)
    (h2 : s.reads.map (fun rd => rd.1)
        = (List.range s.reads.length).map (fun i => "S_" ++ toString (i + 1))) :
    (simStep input depth lv c s).read_id = (simStep input depth lv c s).reads.length + 1 ∧
    (simStep input depth lv c s).reads.map (fun rd => rd.1)
      = (List.range (simStep input depth lv c s).reads.length).map
          (fun i => "S_" ++ toString (i + 1)) := by
  simp only [simStep]
  split
  · exact ⟨h1, h2⟩
  · refine ⟨by simp [h1], ?_⟩
    simp only [List.map_append, List.length_append, List.map_cons, List.map_nil,
      List.length_cons, List.length_nil, Nat.zero_add]
    rw [h2, h1, List.range_succ]
    simp

theorem simRun_ids (input : List Char) (depth lv : Int) :
    ∀ (fuel : Nat) (choices : Nat → Nat) (s : SimState),
      s.read_id = s.reads.length + 1 →
      s.reads.map (fun rd => rd.1)
        = (List.range s.reads.length).map (fun i => "S_" ++ toString (i + 1)) →
      (simRun input depth lv fuel choices s).read_id
          = (simRun input depth lv fuel choices s).reads.length + 1 ∧
      (simRun input depth lv fuel choices s).reads.map (fun rd => rd.1)
        = (List.range (simRun input depth lv fuel choices s).reads.length).map
            (fun i => "S_" ++ toString (i + 1)) := by
  intro fuel
  induction fuel with
  | zero => intro choices s h1 h2; exact ⟨h1, h2⟩
  | succ fuel ih =>
    intro choices s h1 h2
    simp only [simRun]
    split
    · obtain ⟨g1, g2⟩ := simStep_ids input depth lv (choices 0) s h1 h2
      exact ih _ _ g1 g2
    · exact ⟨h1, h2⟩

/-! ## In-bounds slices -/

theorem pySlice_length_of_nonneg {s : List Char} {a b : Int}
    (h0 : 0 ≤ a) (hab : a ≤ b) (hb : b ≤ (s.length : Int)) :
    ((pySlice s a b).length : Int) = b - a := by
  unfold pySlice pyIndex
  rw [if_neg (by omega), if_neg (by omega)]
  simp only [List.length_drop, List.length_take]
  omega

theorem simRun_slice_inv (input : List Char) (depth lv : Int) (hd : 0 < depth) :
    ∀ (fuel : Nat) (choices : Nat → Nat) (s : SimState),
      runDrawsSat input depth lv (fun d => decide (0 ≤ d)) fuel choices s = true →
      0 ≤ s.current_index →
      (∀ rd ∈ s.reads, 0 ≤ rd.2.1 ∧
          pySlice input rd.2.1 (rd.2.1 + (rd.2.2.length : Int)) = rd.2.2 ∧
          rd.2.1 + (rd.2.2.length : Int) ≤ (input.length : Int)) →
      0 ≤ (simRun input depth lv fuel choices s).current_index ∧
      ∀ rd ∈ (simRun input depth lv fuel choices s).reads, 0 ≤ rd.2.1 ∧
          pySlice input rd.2.1 (rd.2.1 + (rd.2.2.length : Int)) = rd.2.2 ∧
          rd.2.1 + (rd.2.2.length : Int) ≤ (input.length : Int) := by
  intro fuel
  induction fuel with
  | zero => intro choices s _ hi hr; exact ⟨hi, hr⟩
  | succ fuel ih =>
    intro choices s hsat hi hr
    simp only [simRun]
    simp only [runDrawsSat] at hsat
    split
    case isTrue hcond =>
      rw [if_pos hcond, Bool.and_eq_true] at hsat
      obtain ⟨hP, hsat2⟩ := hsat
      have hd0 : (0 : Int)
          ≤ randint (s.read_length - lv) (s.read_length + lv) (choices 0) :=
        of_decide_eq_true hP
      apply ih _ _ hsat2
      · rw [simStep_current_index]
        have := Int.fdiv_nonneg hd0 (le_of_lt hd)
        omega
      · intro rd hrd
        by_cases hover : s.current_index
            + randint (s.read_length - lv) (s.read_length + lv) (choices 0)
            > (input.length : Int)
        · rw [simStep_reads_of_overrun _ _ _ _ _ hover] at hrd
          exact hr rd hrd
        · rw [simStep_reads_of_fit _ _ _ _ _ hover] at hrd
          rcases List.mem_append.mp hrd with hmem | hmem
          · exact hr rd hmem
          · push_neg at hover
            rcases List.mem_singleton.mp hmem with rfl
            have hlen : ((pySlice input s.current_index
                (s.current_index
                  + randint (s.read_length - lv) (s.read_length + lv) (choices 0))).length
                  : Int)
                = randint (s.read_length - lv) (s.read_length + lv) (choices 0) := by
              rw [pySlice_length_of_nonneg hi (by omega) hover]
              ring
            refine ⟨hi, ?_, ?_⟩
            · show pySlice input s.current_index (s.current_index + _) = _
              rw [hlen]
            · show s.current_index + _ ≤ (input.length : Int)
              rw [hlen]
              exact hover
    case isFalse => exact ⟨hi, hr⟩

/-! ## Progress and non-progress of the loop -/

theorem simRun_zero (input : List Char) (depth lv : Int) (choices : Nat → Nat)
    (s : SimState) : simRun input depth lv 0 choices s = s := rfl

theorem simRun_succ (input : List Char) (depth lv : Int) (fuel : Nat)
    (choices : Nat → Nat) (s : SimState) :
    simRun input depth lv (fuel + 1) choices s
      = if s.current_index < (input.length : Int) then
          simRun input depth lv fuel (fun i => choices (i + 1))
            (simStep input depth lv (choices 0) s)
        else s := rfl

theorem activeFor_succ (input : List Char) (depth lv : Int) (n : Nat)
    (choices : Nat → Nat) (s : SimState) :
    activeFor input depth lv (n + 1) choices s
      = (decide (s.current_index < (input.length : Int)) &&
          activeFor input depth lv n (fun i => choices (i + 1))
            (simStep input depth lv (choices 0) s)) := rfl

theorem simRun_progress (input : List Char) (depth lv : Int) :
    ∀ (fuel : Nat) (choices : Nat → Nat) (s : SimState),
      runDrawsSat input depth lv (fun d => decide (1 ≤ Int.fdiv d depth))
          fuel choices s = true →
      (input.length : Int) ≤ (simRun input depth lv fuel choices s).current_index ∨
      s.current_index + (fuel : Int)
        ≤ (simRun input depth lv fuel choices s).current_index := by
  intro fuel
  induction fuel with
  | zero => intro choices s _; right; simp [simRun_zero]
  | succ fuel ih =>
    intro choices s hsat
    simp only [simRun]
    simp only [runDrawsSat] at hsat
    split
    case isTrue hcond =>
      rw [if_pos hcond, Bool.and_eq_true] at hsat
      obtain ⟨hP, hsat2⟩ := hsat
      have hstep : (1 : Int) ≤ Int.fdiv
          (randint (s.read_length - lv) (s.read_length + lv) (choices 0)) depth :=
        of_decide_eq_true hP
      rcases ih _ _ hsat2 with h | h
      · exact Or.inl h
      · right
        rw [simStep_current_index] at h
        push_cast
        omega
    case isFalse hcond => exact Or.inl (by omega)

theorem simRun_stuck :
    ∀ (fuel : Nat) (choices : Nat → Nat), (∀ k, choices k = 10) →
      simRun ['A'] 30 10 fuel choices (initState 10) = initState 10 := by
  intro fuel
  induction fuel with
  | zero => intro choices _; rfl
  | succ fuel ih =>
    intro choices h
    simp only [simRun]
    rw [if_pos (by decide)]
    have hstep : simStep ['A'] 30 10 (choices 0) (initState 10) = initState 10 := by
      rw [h 0]; decide
    rw [hstep]
    exact ih _ (fun k => h (k + 1))

/-! ## The sequence of drawn lengths compounds -/

theorem simRun_drawn_lengths (input : List Char) (depth lv : Int) :
    ∀ (j : Nat) (choices : Nat → Nat) (s : SimState),
      activeFor input depth lv (j + 1) choices s = true →
      (simRun input depth lv (j + 1) choices s).read_length
        = specDrawnSeq lv choices s.read_length j := by
  intro j
  induction j with
  | zero =>
    intro choices s hact
    rw [activeFor_succ, Bool.and_eq_true, decide_eq_true_eq] at hact
    obtain ⟨hcond, _⟩ := hact
    rw [simRun_succ, if_pos hcond, simRun_zero, simStep_read_length]
    rfl
  | succ j ih =>
    intro choices s hact
    rw [activeFor_succ, Bool.and_eq_true, decide_eq_true_eq] at hact
    obtain ⟨hcond, hact2⟩ := hact
    rw [simRun_succ, if_pos hcond, ih _ _ hact2, simStep_read_length]
    rfl

/-! ## Runs that can emit no read -/

theorem simRun_one_no_read (input : List Char) (depth lv rl0 : Int)
    (hlv : 0 ≤ lv) (hlen : (input.length : Int) < rl0 - lv) :
    ∀ choices : Nat → Nat,
      (simRun input depth lv 1 choices (initState rl0)).reads = [] := by
  intro choices
  simp only [simRun]
  split
  case isTrue hcond =>
    show (simStep input depth lv (choices 0) (initState rl0)).reads = []
    rw [simStep_reads_of_overrun]
    · rfl
    · have hb := (randint_bounds (choices 0)
        (show rl0 - lv ≤ rl0 + lv by omega)).1
      show (initState rl0).current_index
          + randint ((initState rl0).read_length - lv) ((initState rl0).read_length + lv)
            (choices 0) > (input.length : Int)
      have hrl : (initState rl0).read_length = rl0 := rfl
      have hidx : (initState rl0).current_index = 0 := rfl
      rw [hrl, hidx]
      omega
  case isFalse => rfl

theorem simRun_no_reads_of_zero_var (input : List Char) (depth rl0 : Int)
    (hd : 0 < depth) (hlen : (input.length : Int) < rl0) :
    ∀ (fuel : Nat) (choices : Nat → Nat) (s : SimState),
      0 ≤ s.current_index → s.read_length = rl0 → s.reads = [] →
      (simRun input depth 0 fuel choices s).reads = [] := by
  intro fuel
  induction fuel with
  | zero => intro choices s _ _ h; exact h
  | succ fuel ih =>
    intro choices s hi hrl hreads
    have hdval : randint (s.read_length - 0) (s.read_length + 0) (choices 0) = rl0 := by
      rw [hrl]
      simp [randint]
    simp only [simRun]
    split
    case isTrue hcond =>
      apply ih
      · rw [simStep_current_index, hdval]
        have : (0 : Int) ≤ Int.fdiv rl0 depth :=
          Int.fdiv_nonneg (by omega) (le_of_lt hd)
        omega
      · rw [simStep_read_length, hdval]
      · rw [simStep_reads_of_overrun]
        · exact hreads
        · rw [hdval]
          omega
    case isFalse => exact hreads

/-! ## Claims -/

/-- Claim C1, counterexample.  With `input_string = "ABC"`, `read_length = 4`,
`depth = 1`, `length_variation = 5` and draws `-1` then `4` (both inside their
`randint` intervals), the second iteration emits the tuple `("S_2", -1, "C")`:
its subsequence is taken with Python's negative-index wrapping, but the
claim's equation `sub == input_string[start : start + len(sub)]` evaluates to
`input_string[-1 : 0] = ""` and fails, and its start offset is negative, so
the read is not an in-bounds slice at its recorded offset. -/
theorem claim_C1_counterexample :
    simulate_reads_with_depth ['A', 'B', 'C'] 4 1 5 0 (fun k => if k = 0 then 0 else 10)
        (fun _ => 1) 2
      = [("S_1", 0, ['A', 'B']), ("S_2", -1, ['C'])] ∧
    pySlice ['A', 'B', 'C'] (-1) (-1 + ((['C'] : List Char).length : Int)) ≠ ['C'] := by
  constructor
  · decide
  · decide

/-- Claim C1, amended: under the additional preconditions that `depth` is
positive and every length drawn during the run is nonnegative, every read
returned by `simulate_reads_with_depth` is a contiguous in-bounds slice:
`0 ≤ start`, `sub = input_string[start : start + len(sub)]`, and
`start + len(sub) ≤ len(input_string)`; moreover an iteration whose drawn
length would run past the end of the sequence emits no read (the read is
skipped, never truncated). -/
theorem claim_C1_amended (input : List Char) (rl0 depth lv mrl : Int)
    (choices shuffleOracle : Nat → Nat) (fuel : Nat)
    (hdepth : 0 < depth)
    (hdraws : runDrawsSat input depth lv (fun d => decide (0 ≤ d)) fuel choices
        (initState rl0) = true) :
    (∀ rd ∈ simulate_reads_with_depth input rl0 depth lv mrl choices shuffleOracle fuel,
        0 ≤ rd.2.1 ∧
        pySlice input rd.2.1 (rd.2.1 + (rd.2.2.length : Int)) = rd.2.2 ∧
        rd.2.1 + (rd.2.2.length : Int) ≤ (input.length : Int)) ∧
    (∀ (c : Nat) (s : SimState),
        s.current_index + randint (s.read_length - lv) (s.read_length + lv) c
            > (input.length : Int) →
        (simStep input depth lv c s).reads = s.reads) := by
  constructor
  · intro rd hrd
    have hperm := pyShuffle_perm shuffleOracle
      (simRun input depth lv fuel choices (initState rl0)).reads
    have hmem : rd ∈ (simRun input depth lv fuel choices (initState rl0)).reads :=
      hperm.mem_iff.mp hrd
    exact (simRun_slice_inv input depth lv hdepth fuel choices (initState rl0) hdraws
      (by simp [initState]) (by simp [initState])).2 rd hmem
  · intro c s h
    exact simStep_reads_of_overrun input depth lv c s h

/-- Claim C1, witness for the amended theorem at a concrete run that emits
two reads. -/
theorem claim_C1_witness :
    runDrawsSat ['A', 'A', 'A', 'A'] 1 0 (fun d => decide (0 ≤ d)) 3 (fun _ => 0)
        (initState 2) = true ∧
    ∀ rd ∈ simulate_reads_with_depth ['A', 'A', 'A', 'A'] 2 1 0 0 (fun _ => 0)
        (fun _ => 0) 3,
      0 ≤ rd.2.1 ∧
      pySlice ['A', 'A', 'A', 'A'] rd.2.1 (rd.2.1 + (rd.2.2.length : Int)) = rd.2.2 ∧
      rd.2.1 + (rd.2.2.length : Int) ≤ ((['A', 'A', 'A', 'A'] : List Char).length : Int) :=
  ⟨by decide,
    (claim_C1_amended ['A', 'A', 'A', 'A'] 2 1 0 0 (fun _ => 0) (fun _ => 0) 3
      (by decide) (by decide)).1⟩

/-- Claim C2: if every length drawn during the run gives
`step_size = read_length // depth ≥ 1`, the loop of
`simulate_reads_with_depth` terminates within `len(input_string)` iterations
(the loop condition fails at the resulting state); and when a draw can make
`step_size` zero, termination is not guaranteed: with `input = "A"`,
`read_length = 10`, `depth = 30`, `length_variation = 10` and the constant
in-interval draw `10`, the state never changes, so the loop condition holds
forever no matter how much fuel is supplied. -/
theorem claim_C2 :
    (∀ (input : List Char) (rl0 depth lv : Int) (choices : Nat → Nat),
        runDrawsSat input depth lv (fun d => decide (1 ≤ Int.fdiv d depth))
            input.length choices (initState rl0) = true →
        (input.length : Int)
          ≤ (simRun input depth lv input.length choices (initState rl0)).current_index) ∧
    ((∀ (fuel : Nat) (choices : Nat → Nat), (∀ k, choices k = 10) →
        simRun ['A'] 30 10 fuel choices (initState 10) = initState 10) ∧
      (initState 10).current_index < ((['A'] : List Char).length : Int)) := by
  constructor
  · intro input rl0 depth lv choices hsat
    rcases simRun_progress input depth lv input.length choices (initState rl0) hsat
      with h | h
    · exact h
    · have hidx : (initState rl0).current_index = 0 := rfl
      rw [hidx] at h
      omega
  · exact ⟨simRun_stuck, by decide⟩

/-- Claim C2, witness: a concrete run with all step sizes equal to `1`
terminates with the cursor at the end of the sequence. -/
theorem claim_C2_witness :
    runDrawsSat ['A', 'A'] 1 0 (fun d => decide (1 ≤ Int.fdiv d 1))
        (['A', 'A'] : List Char).length (fun _ => 0) (initState 1) = true ∧
    ((((['A', 'A'] : List Char).length : Int))
      ≤ (simRun ['A', 'A'] 1 0 (['A', 'A'] : List Char).length (fun _ => 0)
          (initState 1)).current_index) :=
  ⟨by decide, claim_C2.1 ['A', 'A'] 1 1 0 (fun _ => 0) (by decide)⟩

/-- Claim C3: the length draws compound.  The initial state carries the
`read_length` parameter; each `randint` value lies in the closed interval of
radius `length_variation` centered on the state's current `read_length`; and
whenever the loop body runs `j + 1` times, the `read_length` reached equals
`specDrawnSeq length_variation choices read_length j`, the cumulative
sequence in which each draw is centered on the previous iteration's drawn
length, not on the original parameter. -/
theorem claim_C3 :
    (∀ rl0 : Int, (initState rl0).read_length = rl0) ∧
    (∀ (lo hi : Int) (c : Nat), lo ≤ hi →
        lo ≤ randint lo hi c ∧ randint lo hi c ≤ hi) ∧
    (∀ (input : List Char) (depth lv rl0 : Int) (choices : Nat → Nat) (j : Nat),
        activeFor input depth lv (j + 1) choices (initState rl0) = true →
        (simRun input depth lv (j + 1) choices (initState rl0)).read_length
          = specDrawnSeq lv choices rl0 j) := by
  refine ⟨fun _ => rfl, fun lo hi c h => randint_bounds c h, ?_⟩
  intro input depth lv rl0 choices j hact
  have h := simRun_drawn_lengths input depth lv j choices (initState rl0) hact
  have hrl : (initState rl0).read_length = rl0 := rfl
  rwa [hrl] at h

/-- Claim C3, witness: a concrete two-iteration run whose final `read_length`
equals the compounding sequence, plus concrete interval bounds. -/
theorem claim_C3_witness :
    (activeFor ['A', 'A', 'A', 'A', 'A'] 1 1 2 (fun k => k) (initState 2) = true ∧
      (simRun ['A', 'A', 'A', 'A', 'A'] 1 1 2 (fun k => k) (initState 2)).read_length
        = specDrawnSeq 1 (fun k => k) 2 1) ∧
    ((0 : Int) ≤ randint 0 3 5 ∧ randint 0 3 5 ≤ 3) :=
  ⟨⟨by decide,
      claim_C3.2.2 ['A', 'A', 'A', 'A', 'A'] 1 1 2 (fun k => k) 1 (by decide)⟩,
    claim_C3.2.1 0 3 5 (by decide)⟩

/-- Claim C4, counterexample.  `input` of length `8 < 12 - 3`, `read_length = 12`,
`depth = 12`, `length_variation = 3`: the draws compound downwards
(`9, 6, 9, 12, 15, ...`, all inside their intervals), the second iteration
emits a read of length `6`, and the run then terminates with the cursor at the
sequence end — so a sequence shorter than `read_length - length_variation` can
produce a non-empty read list. -/
theorem claim_C4_counterexample :
    ((List.replicate 8 'A').length : Int) < 12 - 3 ∧
    (simRun (List.replicate 8 'A') 12 3 10 (fun k => if k < 2 then 0 else 6)
        (initState 12)).current_index = 8 ∧
    (simRun (List.replicate 8 'A') 12 3 10 (fun k => if k < 2 then 0 else 6)
        (initState 12)).reads = [("S_1", 0, List.replicate 6 'A')] ∧
    simulate_reads_with_depth (List.replicate 8 'A') 12 12 3 0
        (fun k => if k < 2 then 0 else 6) (fun _ => 0) 10 ≠ [] := by
  refine ⟨by decide, by decide, by decide, by decide⟩

/-- Claim C4, amended: for an input shorter than
`read_length - length_variation` (with `0 ≤ length_variation`, `0 < depth`)
the first iteration always skips its read, so a single-iteration run returns
no reads for every draw; and when `length_variation = 0` — the case in which
draws cannot compound downwards — the read list is empty for every fuel and
every draw sequence. -/
theorem claim_C4_amended (input : List Char) (rl0 depth lv : Int) (choices : Nat → Nat)
    (hlv : 0 ≤ lv) (hd : 0 < depth) (hlen : (input.length : Int) < rl0 - lv) :
    (simRun input depth lv 1 choices (initState rl0)).reads = [] ∧
    (lv = 0 → ∀ fuel : Nat,
      (simRun input depth 0 fuel choices (initState rl0)).reads = []) := by
  constructor
  · exact simRun_one_no_read input depth lv rl0 hlv hlen choices
  · intro hlv0 fuel
    exact simRun_no_reads_of_zero_var input depth rl0 hd (by omega) fuel choices
      (initState rl0) (by simp [initState]) rfl rfl

/-- Claim C4, witness for the amended theorem at a concrete short input. -/
theorem claim_C4_witness :
    (simRun ['A'] 2 1 1 (fun _ => 0) (initState 5)).reads = [] ∧
    (simRun ['A'] 2 0 3 (fun _ => 0) (initState 5)).reads = [] :=
  ⟨(claim_C4_amended ['A'] 5 2 1 (fun _ => 0) (by decide) (by decide) (by decide)).1,
    (claim_C4_amended ['A'] 5 2 0 (fun _ => 0) (by decide) (by decide) (by decide)).2
      rfl 3⟩

/-- Claim C5: in generation order (before the shuffle), the list of
identifiers of the emitted reads is exactly
`["S_1", "S_2", ..., "S_n"]` — the `k`-th read appended carries
`"S_" ++ toString (k+1)` — the counter `read_id` always equals the number of
emitted reads plus one, and the identifiers are pairwise distinct. -/
theorem claim_C5 (input : List Char) (rl0 depth lv : Int) (choices : Nat → Nat)
    (fuel : Nat) :
    ((simRun input depth lv fuel choices (initState rl0)).reads.map (fun rd => rd.1)
      = (List.range (simRun input depth lv fuel choices (initState rl0)).reads.length).map
          (fun i => "S_" ++ toString (i + 1))) ∧
    ((simRun input depth lv fuel choices (initState rl0)).read_id
      = (simRun input depth lv fuel choices (initState rl0)).reads.length + 1) ∧
    ((simRun input depth lv fuel choices (initState rl0)).reads.map
        (fun rd => rd.1)).Nodup := by
  obtain ⟨h1, h2⟩ := simRun_ids input depth lv fuel choices (initState rl0) rfl
    (by simp [initState])
  refine ⟨h2, h1, ?_⟩
  rw [h2]
  exact List.Nodup.map sid_inj (List.nodup_range _)

/-- Claim C6: `min_read_length` has no effect on the output — the body of
`simulate_reads_with_depth` never reads it, so two calls differing only in
that argument and consuming identical oracle values return identical lists. -/
theorem claim_C6 (input : List Char) (rl0 depth lv m1 m2 : Int)
    (choices shuffleOracle : Nat → Nat) (fuel : Nat) :
    simulate_reads_with_depth input rl0 depth lv m1 choices shuffleOracle fuel
      = simulate_reads_with_depth input rl0 depth lv m2 choices shuffleOracle fuel := rfl

/-- Claim C7: the reordering stages only permute reads.  The shuffled list
returned by `simulate_reads_with_depth` is a permutation of the reads in
generation order, and the sorted list built for the GFA writer is a
permutation of its input list; permutation equality is multiset equality of
the unchanged `Read` tuples. -/
theorem claim_C7 (input : List Char) (rl0 depth lv mrl : Int)
    (choices shuffleOracle : Nat → Nat) (fuel : Nat) :
    (simulate_reads_with_depth input rl0 depth lv mrl choices shuffleOracle fuel).Perm
        ((simRun input depth lv fuel choices (initState rl0)).reads) ∧
    ∀ l : List Read, (gfaSort l).Perm l :=
  ⟨pyShuffle_perm shuffleOracle _, gfaSort_perm⟩

/-- Claim C8: the GFA stage sorts by the key
`(length of identifier, identifier)` — shorter identifiers first, then
lexicographic — the sorted output is ordered by that key, and on the spec's
concrete example the identifiers `["S_10_5", "S_2_1", "S_1_0"]` sort to
`["S_1_0", "S_2_1", "S_10_5"]`. -/
theorem claim_C8 :
    (∀ t : Read, custom_sort t = (t.1.length, t.1)) ∧
    ((gfaSort [("S_10_5", 5, []), ("S_2_1", 1, []), ("S_1_0", 0, [])]).map
        (fun t => t.1)
      = ["S_1_0", "S_2_1", "S_10_5"]) ∧
    (∀ l : List Read, List.Sorted gfaLe (gfaSort l)) :=
  ⟨fun _ => rfl, by decide, gfaSort_sorted⟩

/-- Claim C9: `create_random_read` returns a string of exactly the requested
length whose characters all belong to `{A, T, G, C}`, for every positive
requested length. -/
theorem claim_C9 (n : Nat) (r : Nat → Nat) (hn : 0 < n) :
    (create_random_read n r).length = n ∧
    ∀ c ∈ create_random_read n r, c ∈ nucleotides := by
  refine ⟨by simp [create_random_read], ?_⟩
  intro c hc
  simp only [create_random_read] at hc
  rcases List.mem_map.mp hc with ⟨i, _, rfl⟩
  have h4 : r i % 4 < 4 := Nat.mod_lt _ (by norm_num)
  have hall : ∀ k, k < 4 → nucleotides.getD k 'A' ∈ nucleotides := by decide
  exact hall _ h4

/-- Claim C9, witness at requested length `2`. -/
theorem claim_C9_witness :
    (create_random_read 2 (fun i => i)).length = 2 ∧ 'T' ∈ nucleotides :=
  ⟨(claim_C9 2 (fun i => i) (by decide)).1,
    (claim_C9 2 (fun i => i) (by decide)).2 'T' (by decide)⟩

/-- Claim C10: on the empty input string `simulate_reads_with_depth` returns
the empty list for every choice of parameters, oracles and fuel: the loop
condition `current_index < len(input_string)` fails immediately. -/
theorem claim_C10 (rl0 depth lv mrl : Int) (choices shuffleOracle : Nat → Nat)
    (fuel : Nat) :
    simulate_reads_with_depth [] rl0 depth lv mrl choices shuffleOracle fuel = [] := by
  cases fuel <;> rfl
